import Mathlib

/-!
Formal model of the ESP32 smart-dimmer firmware (`ESP32/main/main.c`).

The development has three parts:

* an exact model of IEEE-754 binary32 (single-precision) round-to-nearest-even
  arithmetic over `ℚ`, used by the background task's trigger-delay computation
  (`trigger_time = (uint64_t)((1 - brightness / 100.0f) * period + zero_crossing_time)`);
* a state machine for the zero-crossing ISR (`crossing_zero_isr_handler`),
  the one-shot trigger timer (`trigger_timer_callback`) and the background
  recompute task (the loop body of `smart_dimmer_control`);
* a model of the HTTP brightness handler (`http_request_handler`).

Rational arithmetic is written with `Rat.divInt` so that every definition
evaluates by kernel reduction (`decide`); lemmas relate these operations to
the ordinary field operations on `ℚ`.
-/

/-! ### Binary32 arithmetic model -/

/-- Fuel-driven floor of the base-2 logarithm on `ℕ` (fuel first). -/
def log2f : ℕ → ℕ → ℕ
  | 0, _ => 0
  | f+1, n => if n ≤ 1 then 0 else log2f f (n / 2) + 1

/-- `natLog2 n` is `⌊log₂ n⌋` for `n ≥ 1` (and `0` at `0`). -/
def natLog2 (n : ℕ) : ℕ := log2f n n

/-- `2 ^ e` for an integer exponent, built from `Rat.divInt` so it reduces. -/
def q2 (e : ℤ) : ℚ := if 0 ≤ e then Rat.divInt (2 ^ e.toNat) 1 else Rat.divInt 1 (2 ^ (-e).toNat)

/-- Kernel-reducible product on `ℚ` (agrees with `*`, see `qmul_eq`). -/
def qmul (a b : ℚ) : ℚ := Rat.divInt (a.num * b.num) (a.den * b.den)

/-- Kernel-reducible sum on `ℚ` (agrees with `+`, see `qadd_eq`). -/
def qadd (a b : ℚ) : ℚ := Rat.divInt (a.num * b.den + b.num * a.den) (a.den * b.den)

/-- Kernel-reducible difference on `ℚ` (agrees with `-`, see `qsub_eq`). -/
def qsub (a b : ℚ) : ℚ := Rat.divInt (a.num * b.den - b.num * a.den) (a.den * b.den)

/-- Kernel-reducible quotient on `ℚ` (agrees with `/`, see `qdiv_eq`). -/
def qdiv (a b : ℚ) : ℚ := Rat.divInt (a.num * b.den) (b.num * a.den)

/-- `⌊log₂ q⌋` for a positive rational `q`. -/
def qlog2 (q : ℚ) : ℤ :=
  if q < q2 ((natLog2 q.num.toNat : ℤ) - (natLog2 q.den : ℤ)) then
    (natLog2 q.num.toNat : ℤ) - (natLog2 q.den : ℤ) - 1
  else
    (natLog2 q.num.toNat : ℤ) - (natLog2 q.den : ℤ)

/-- Round a rational to the nearest integer, ties to even. -/
def roundEven (x : ℚ) : ℤ :=
  if qsub x (Rat.divInt ⌊x⌋ 1) < Rat.divInt 1 2 then ⌊x⌋
  else if Rat.divInt 1 2 < qsub x (Rat.divInt ⌊x⌋ 1) then ⌊x⌋ + 1
  else if ⌊x⌋ % 2 = 0 then ⌊x⌋ else ⌊x⌋ + 1

/-- Binary32 round-to-nearest-even of a positive rational: the significand
`q / 2 ^ (⌊log₂ q⌋ - 23)` lies in `[2^23, 2^24)` and is rounded to an
integer.  All values reached by the firmware are in the normal range, so
subnormals and overflow to infinity need no treatment. -/
def rndPos (q : ℚ) : ℚ :=
  qmul (Rat.divInt (roundEven (qdiv q (q2 (qlog2 q - 23)))) 1) (q2 (qlog2 q - 23))

/-- Binary32 round-to-nearest-even on `ℚ` (sign-symmetric, `0 ↦ 0`). -/
def rnd (q : ℚ) : ℚ :=
  if 0 < q then rndPos q else if q < 0 then -(rndPos (-q)) else 0

/-- Conversion of an unsigned integer to binary32 (C integer→float cast). -/
def fof (n : ℕ) : ℚ := rnd (Rat.divInt n 1)

/-- Binary32 division. -/
def fdiv (a b : ℚ) : ℚ := rnd (qdiv a b)

/-- Binary32 subtraction. -/
def fsub (a b : ℚ) : ℚ := rnd (qsub a b)

/-- Binary32 multiplication. -/
def fmul (a b : ℚ) : ℚ := rnd (qmul a b)

/-- Binary32 addition. -/
def fadd (a b : ℚ) : ℚ := rnd (qadd a b)

/-- The background task's trigger-delay computation, exactly as in
`smart_dimmer_control`:
`trigger_time = (uint64_t)((1 - brightness / 100.0f) * period + zero_crossing_time);`
with all arithmetic in binary32 (`brightness`, `period`, `zero_crossing_time`
are converted to float; the result is truncated toward zero by the cast). -/
def computeTrigger (b p z : ℕ) : ℕ :=
  (⌊fadd (fmul (fsub (fof 1) (fdiv (fof b) (fof 100))) (fof p)) (fof z)⌋).toNat

/-! ### Dimmer state machine

State: the C globals of `main.c` (`rising_time`, `falling_time`,
`zero_crossing_time`, `trigger_time` are `uint64_t`; `period` is `uint16_t`;
`brightness` is `uint8_t`; two `bool` flags), together with the hardware the
firmware drives: the output GPIO level and the one-shot `esp_timer`
(pending flag and the delay it was armed with). -/
@[ext]
structure DimmerState where
  rising_time : ℕ
  falling_time : ℕ
  zero_crossing_time : ℕ
  trigger_time : ℕ
  period : ℕ
  brightness : ℕ
  is_crossing_zero : Bool
  is_triggering : Bool
  output_pin : Bool
  timer_armed : Bool
  timer_delay : ℕ
deriving DecidableEq

/-- The zero-crossing ISR, translated line by line from
`crossing_zero_isr_handler` in `main.c`.  `t` is `esp_timer_get_time()` and
`lvl` is `gpio_get_level(INPUT_PIN)`.  On a rising edge it deasserts the
output pin, then (if no trigger is pending and `trigger_time < period`) arms
the one-shot timer for `trigger_time` µs, then stores
`period = current_time - rising_time` (`uint64` subtraction truncated into a
`uint16`) and the new rising timestamp.  On a falling edge it records the
falling timestamp.  It always stores the new level in `is_crossing_zero`. -/
def crossing_zero_isr_handler (t : ℕ) (lvl : Bool) (s : DimmerState) : DimmerState :=
  if lvl = true ∧ s.is_crossing_zero = false then
    if s.is_triggering = false ∧ s.trigger_time < s.period then
      { s with output_pin := false,
               timer_armed := true, timer_delay := s.trigger_time, is_triggering := true,
               period := (t % 2 ^ 64 + 2 ^ 64 - s.rising_time) % 2 ^ 64 % 2 ^ 16,
               rising_time := t % 2 ^ 64,
               is_crossing_zero := lvl }
    else
      { s with output_pin := false,
               period := (t % 2 ^ 64 + 2 ^ 64 - s.rising_time) % 2 ^ 64 % 2 ^ 16,
               rising_time := t % 2 ^ 64,
               is_crossing_zero := lvl }
  else if lvl = false ∧ s.is_crossing_zero = true then
    { s with falling_time := t % 2 ^ 64, is_crossing_zero := lvl }
  else
    { s with is_crossing_zero := lvl }

/-- The trigger-timer expiry callback `trigger_timer_callback`: assert the
output pin and clear `is_triggering`. -/
def trigger_timer_callback (s : DimmerState) : DimmerState :=
  { s with output_pin := true, is_triggering := false }

/-- One iteration of the background recompute task (the loop body of
`smart_dimmer_control`), run after each wake: after a rising edge
(`is_crossing_zero` true) recompute `trigger_time` in binary32 arithmetic;
after a falling edge with both timestamps nonzero recompute
`zero_crossing_time = (falling_time - rising_time) / 2` (`uint64`
arithmetic). -/
def smart_dimmer_control (s : DimmerState) : DimmerState :=
  if s.is_crossing_zero = true then
    { s with trigger_time := computeTrigger s.brightness s.period s.zero_crossing_time }
  else if s.is_crossing_zero = false ∧ s.rising_time ≠ 0 ∧ s.falling_time ≠ 0 then
    { s with zero_crossing_time := (s.falling_time + 2 ^ 64 - s.rising_time) % 2 ^ 64 / 2 }
  else s

/-- Events driving the controller: a GPIO edge interrupt carrying the current
time and input level, or the expiry of the one-shot timer. -/
inductive Ev where
  | edge : ℕ → Bool → Ev
  | fire : Ev
deriving DecidableEq

/-- One step of the system.  An edge runs the ISR and then the background
task iteration it wakes (§4.2/§5 of the design: the task is resumed exactly
once per edge and completes before the next edge).  `fire` models the
one-shot timer expiry: it can only happen while the timer is pending, runs
the callback, and the hardware timer returns to the unarmed state. -/
def stepEv (s : DimmerState) : Ev → DimmerState
  | .edge t lvl => smart_dimmer_control (crossing_zero_isr_handler t lvl s)
  | .fire => if s.timer_armed = true then { trigger_timer_callback s with timer_armed := false } else s

/-- The reset state: all timestamps, the period and the delay are zero and
the flags clear, with a given stored brightness. -/
def initSt (b : ℕ) : DimmerState :=
  { rising_time := 0, falling_time := 0, zero_crossing_time := 0, trigger_time := 0,
    period := 0, brightness := b, is_crossing_zero := false, is_triggering := false,
    output_pin := false, timer_armed := false, timer_delay := 0 }

/-- Run the controller from reset on a list of events. -/
def run (b : ℕ) (evs : List Ev) : DimmerState := evs.foldl stepEv (initSt b)

/-- Number of rising edges (input high while the stored level was low)
processed along a run from `s`. -/
def risingsFrom (s : DimmerState) : List Ev → ℕ
  | [] => 0
  | e :: rest =>
    (match e with
     | .edge _ lvl => if lvl = true ∧ s.is_crossing_zero = false then 1 else 0
     | .fire => 0) + risingsFrom (stepEv s e) rest

/-- Rising edges processed along a run from reset. -/
def risings (b : ℕ) (evs : List Ev) : ℕ := risingsFrom (initSt b) evs

/-- The sequence of `trigger_time` values after each processed event. -/
def trigTrace (s : DimmerState) : List Ev → List ℕ
  | [] => []
  | e :: rest => (stepEv s e).trigger_time :: trigTrace (stepEv s e) rest

/-- Shift every edge timestamp of an event by `d` µs. -/
def shiftEv (d : ℕ) : Ev → Ev
  | .edge t lvl => .edge (t + d) lvl
  | .fire => .fire

/-- Shift the two timestamp fields of a state by `d` µs, leaving the derived
quantities (`period`, `zero_crossing_time`, `trigger_time`) and the flags
unchanged. -/
def shiftSt (d : ℕ) (s : DimmerState) : DimmerState :=
  { s with rising_time := s.rising_time + d, falling_time := s.falling_time + d }

/-- Phase 1 of the spec's rising-edge contract (§4.1): immediately deassert
the output trigger line, regardless of `is_triggering`. -/
def spec_deassert (s : DimmerState) : DimmerState := { s with output_pin := false }

/-- Phase 2 of the spec's rising-edge contract (§4.1): if no trigger is
pending and the previously computed delay is below the previously measured
period, arm the one-shot timer for `trigger_time` µs and mark
`is_triggering`. -/
def spec_arm (s : DimmerState) : DimmerState :=
  if s.is_triggering = false ∧ s.trigger_time < s.period then
    { s with timer_armed := true, timer_delay := s.trigger_time, is_triggering := true }
  else s

/-- Phase 3 of the spec's rising-edge contract (§4.1): only then recompute
`period` as the time since the last rising edge and record the new rising
timestamp. -/
def spec_measure (t : ℕ) (s : DimmerState) : DimmerState :=
  { s with period := (t % 2 ^ 64 + 2 ^ 64 - s.rising_time) % 2 ^ 64 % 2 ^ 16,
           rising_time := t % 2 ^ 64 }

/-! ### HTTP brightness handler -/

/-- C `isspace` (default locale), as used by `atoi`. -/
def isSpaceChar (c : Char) : Bool :=
  c == ' ' || c == '\t' || c == '\n' || c == '\x0b' || c == '\x0c' || c == '\r'

/-- Accumulate leading decimal digits (the digit loop of C `atoi`). -/
def digitsVal : List Char → ℕ → ℕ
  | [], acc => acc
  | c :: cs, acc => if '0' ≤ c ∧ c ≤ '9' then digitsVal cs (10 * acc + (c.toNat - 48)) else acc

/-- Sign handling of C `atoi` after whitespace has been skipped. -/
def atoiSigned : List Char → ℤ
  | '-' :: r => -(digitsVal r 0 : ℤ)
  | '+' :: r => (digitsVal r 0 : ℤ)
  | r => (digitsVal r 0 : ℤ)

/-- C `atoi`: skip whitespace, optional sign, leading digits (0 if none). -/
def atoi (s : List Char) : ℤ := atoiSigned (s.dropWhile isSpaceChar)

/-- Split a character list at the first occurrence of `c`: the part before
it, and (if present) the part after it. -/
def firstSplit (c : Char) : List Char → List Char × Option (List Char)
  | [] => ([], none)
  | x :: xs =>
    if x = c then ([], some xs)
    else (x :: (firstSplit c xs).1, (firstSplit c xs).2)

/-- `httpd_query_key_value`: scan the `&`-separated pairs of the query
string for one whose part before the first `=` equals `key`; return the part
after the `=` (up to the next `&`).  Fuel-driven recursion over the
remaining string. -/
def findValue (key : List Char) : ℕ → List Char → Option (List Char)
  | 0, _ => none
  | fuel+1, q =>
    if (firstSplit '=' (firstSplit '&' q).1).1 = key then
      (firstSplit '=' (firstSplit '&' q).1).2
    else
      match (firstSplit '&' q).2 with
      | some r => findValue key fuel r
      | none => none

/-- The query key `"brightness"`. -/
def bKey : List Char := ['b', 'r', 'i', 'g', 'h', 't', 'n', 'e', 's', 's']

/-- A query string `brightness=v`. -/
def bq (v : List Char) : List Char := bKey ++ '=' :: v

/-- Decimal digits of `n`, most significant first (C `snprintf` `%d` for a
nonnegative value; fuel-driven). -/
def natReprAux : ℕ → ℕ → List Char
  | 0, _ => []
  | fuel+1, n =>
    if n < 10 then [Char.ofNat (48 + n)]
    else natReprAux fuel (n / 10) ++ [Char.ofNat (48 + n % 10)]

/-- Decimal representation of `n`. -/
def natRepr (n : ℕ) : List Char := natReprAux (n + 1) n

/-- The store step of `http_request_handler` in `main.c`: if the query
string is 1–15 characters (so `buffer_length` fits the 16-byte buffer), the
`brightness` key is found, and its value fits the 5-byte `param` buffer
(at most 4 characters, else `httpd_query_key_value` reports truncation),
convert the value with `atoi` and store it clamped to `[0, 100]`; in every
other case keep the stored value. -/
def brightnessStore (stored : ℕ) (query : List Char) : ℕ :=
  if 1 ≤ query.length ∧ query.length ≤ 15 then
    match findValue bKey (query.length + 1) query with
    | some v =>
      if v.length ≤ 4 then
        if atoi v > 100 then 100
        else if atoi v < 0 then 0
        else (atoi v).toNat
      else stored
    | none => stored
  else stored

/-- `http_request_handler`: update the stored brightness from the query
string, then respond with the decimal representation of the (possibly
updated) stored brightness. -/
def http_request_handler (stored : ℕ) (query : List Char) : ℕ × List Char :=
  (brightnessStore stored query, natRepr (brightnessStore stored query))

/-- The clamp rule of §6 of the spec: values are clamped to `[0, 100]`. -/
def specClamp (v : ℤ) : ℤ := if v > 100 then 100 else if v < 0 then 0 else v

/-! ### The divInt-based operations agree with the field operations on ℚ -/

theorem qmul_eq (a b : ℚ) : qmul a b = a * b := by
  rw [qmul, Rat.divInt_eq_div]
  push_cast
  rw [← div_mul_div_comm, Rat.num_div_den, Rat.num_div_den]

theorem qadd_eq (a b : ℚ) : qadd a b = a + b := by
  have had : ((a.den : ℚ)) ≠ 0 := by exact_mod_cast a.den_ne_zero
  have hbd : ((b.den : ℚ)) ≠ 0 := by exact_mod_cast b.den_ne_zero
  rw [qadd, Rat.divInt_eq_div]
  push_cast
  conv_rhs => rw [← Rat.num_div_den a, ← Rat.num_div_den b]
  field_simp

theorem qsub_eq (a b : ℚ) : qsub a b = a - b := by
  have had : ((a.den : ℚ)) ≠ 0 := by exact_mod_cast a.den_ne_zero
  have hbd : ((b.den : ℚ)) ≠ 0 := by exact_mod_cast b.den_ne_zero
  rw [qsub, Rat.divInt_eq_div]
  push_cast
  conv_rhs => rw [← Rat.num_div_den a, ← Rat.num_div_den b]
  field_simp
  ring

theorem qdiv_eq (a b : ℚ) : qdiv a b = a / b := by
  rcases eq_or_ne b 0 with hb | hb
  · subst hb
    rw [qdiv, Rat.num_zero, Int.zero_mul, Rat.divInt_zero, div_zero]
  · have had : ((a.den : ℚ)) ≠ 0 := by exact_mod_cast a.den_ne_zero
    have hbd : ((b.den : ℚ)) ≠ 0 := by exact_mod_cast b.den_ne_zero
    have hbn : ((b.num : ℚ)) ≠ 0 := by exact_mod_cast Rat.num_ne_zero.mpr hb
    have ha : (a.num : ℚ) = a * a.den := (div_eq_iff had).mp (Rat.num_div_den a)
    have hb' : (b.num : ℚ) = b * b.den := (div_eq_iff hbd).mp (Rat.num_div_den b)
    rw [qdiv, Rat.divInt_eq_div]
    push_cast
    rw [div_eq_div_iff (mul_ne_zero hbn had) hb]
    rw [ha, hb']
    ring

theorem q2_eq (e : ℤ) : q2 e = (2 : ℚ) ^ e := by
  rw [q2]
  split
  · rw [Rat.divInt_one]
    push_cast
    rw [← zpow_natCast, Int.toNat_of_nonneg (by assumption)]
  · rw [Rat.divInt_eq_div]
    push_cast
    rw [one_div, ← zpow_natCast, Int.toNat_of_nonneg (by omega), ← zpow_neg, neg_neg]

/-! ### Bracketing of the base-2 logarithms -/

lemma log2f_spec : ∀ (f n : ℕ), 1 ≤ n → n ≤ f → 2 ^ log2f f n ≤ n ∧ n < 2 ^ (log2f f n + 1) := by
  intro f
  induction f with
  | zero => intro n h1 h2; omega
  | succ f ih =>
    intro n h1 h2
    rw [log2f]
    split
    · have hn1 : n = 1 := by omega
      subst hn1
      norm_num
    · have hn2 : 2 ≤ n := by omega
      obtain ⟨hl, hr⟩ := ih (n / 2) (by omega) (by omega)
      constructor
      · calc 2 ^ (log2f f (n / 2) + 1) = 2 * 2 ^ log2f f (n / 2) := by ring
          _ ≤ 2 * (n / 2) := by omega
          _ ≤ n := by omega
      · calc n < 2 * (n / 2) + 2 := by omega
          _ ≤ 2 * 2 ^ (log2f f (n / 2) + 1) := by omega
          _ = 2 ^ (log2f f (n / 2) + 1 + 1) := by ring

lemma natLog2_spec (n : ℕ) (h : 1 ≤ n) : 2 ^ natLog2 n ≤ n ∧ n < 2 ^ (natLog2 n + 1) :=
  log2f_spec n n h le_rfl

lemma npow_cast_zpow (k : ℕ) : ((2 ^ k : ℕ) : ℚ) = (2 : ℚ) ^ (k : ℤ) := by
  push_cast
  exact (zpow_natCast 2 k).symm

lemma bracket_choose (q : ℚ) (E : ℤ) (hlow : (2 : ℚ) ^ (E - 1) < q) (hhigh : q < 2 ^ (E + 1)) :
    (2 : ℚ) ^ (if q < 2 ^ E then E - 1 else E) ≤ q ∧
      q < 2 ^ ((if q < 2 ^ E then E - 1 else E) + 1) := by
  split_ifs with h
  · refine ⟨le_of_lt hlow, ?_⟩
    rwa [sub_add_cancel]
  · exact ⟨not_lt.mp h, hhigh⟩

lemma qlog2_spec (q : ℚ) (hq : 0 < q) :
    (2 : ℚ) ^ qlog2 q ≤ q ∧ q < (2 : ℚ) ^ (qlog2 q + 1) := by
  have hnum0 : 0 < q.num := Rat.num_pos.mpr hq
  have hnn : ((q.num.toNat : ℤ)) = q.num := Int.toNat_of_nonneg (le_of_lt hnum0)
  have hn : 1 ≤ q.num.toNat := by omega
  have hdpos : 0 < q.den := q.den_pos
  obtain ⟨ha1, ha2⟩ := natLog2_spec q.num.toNat hn
  obtain ⟨hb1, hb2⟩ := natLog2_spec q.den (by omega)
  have hd0 : (0 : ℚ) < (q.den : ℚ) := by exact_mod_cast hdpos
  have hq_eq : q = (q.num.toNat : ℚ) / (q.den : ℚ) := by
    conv_lhs => rw [← Rat.num_div_den q]
    congr 1
    exact_mod_cast hnn.symm
  have hza2 : (q.num.toNat : ℚ) < (2 : ℚ) ^ ((natLog2 q.num.toNat : ℤ) + 1) := by
    rw [show ((natLog2 q.num.toNat : ℤ) + 1) = ((natLog2 q.num.toNat + 1 : ℕ) : ℤ) by push_cast; ring,
       ← npow_cast_zpow]
    exact_mod_cast ha2
  have hza1 : (2 : ℚ) ^ ((natLog2 q.num.toNat : ℤ)) ≤ (q.num.toNat : ℚ) := by
    rw [← npow_cast_zpow]
    exact_mod_cast ha1
  have hzb1 : (2 : ℚ) ^ ((natLog2 q.den : ℤ)) ≤ (q.den : ℚ) := by
    rw [← npow_cast_zpow]
    exact_mod_cast hb1
  have hzb2 : ((q.den : ℚ)) < (2 : ℚ) ^ ((natLog2 q.den : ℤ) + 1) := by
    rw [show ((natLog2 q.den : ℤ) + 1) = ((natLog2 q.den + 1 : ℕ) : ℤ) by push_cast; ring,
       ← npow_cast_zpow]
    exact_mod_cast hb2
  have hupper : q < (2 : ℚ) ^ ((natLog2 q.num.toNat : ℤ) - (natLog2 q.den : ℤ) + 1) := by
    have hnum : (q.num.toNat : ℚ) <
        2 ^ ((natLog2 q.num.toNat : ℤ) - (natLog2 q.den : ℤ) + 1) * (q.den : ℚ) := by
      calc (q.num.toNat : ℚ) < 2 ^ ((natLog2 q.num.toNat : ℤ) + 1) := hza2
      _ = 2 ^ ((natLog2 q.num.toNat : ℤ) - (natLog2 q.den : ℤ) + 1) * 2 ^ ((natLog2 q.den : ℤ)) := by
          rw [← zpow_add₀ (by norm_num : (2 : ℚ) ≠ 0)]
          congr 1
          ring
      _ ≤ 2 ^ ((natLog2 q.num.toNat : ℤ) - (natLog2 q.den : ℤ) + 1) * (q.den : ℚ) :=
          mul_le_mul_of_nonneg_left hzb1 (le_of_lt (zpow_pos (by norm_num) _))
    have hdiv := (div_lt_iff₀ hd0).mpr hnum
    rwa [← hq_eq] at hdiv
  have hlower : (2 : ℚ) ^ ((natLog2 q.num.toNat : ℤ) - (natLog2 q.den : ℤ) - 1) < q := by
    have hnum : (2 : ℚ) ^ ((natLog2 q.num.toNat : ℤ) - (natLog2 q.den : ℤ) - 1) * (q.den : ℚ) <
        (q.num.toNat : ℚ) := by
      calc (2 : ℚ) ^ ((natLog2 q.num.toNat : ℤ) - (natLog2 q.den : ℤ) - 1) * (q.den : ℚ)
        < 2 ^ ((natLog2 q.num.toNat : ℤ) - (natLog2 q.den : ℤ) - 1) *
            2 ^ ((natLog2 q.den : ℤ) + 1) :=
          mul_lt_mul_of_pos_left hzb2 (zpow_pos (by norm_num) _)
      _ = 2 ^ ((natLog2 q.num.toNat : ℤ)) := by
          rw [← zpow_add₀ (by norm_num : (2 : ℚ) ≠ 0)]
          congr 1
          ring
      _ ≤ (q.num.toNat : ℚ) := hza1
    have hdiv := (lt_div_iff₀ hd0).mpr hnum
    rwa [← hq_eq] at hdiv
  have hQ : qlog2 q =
      if q < (2 : ℚ) ^ ((natLog2 q.num.toNat : ℤ) - (natLog2 q.den : ℤ)) then
        (natLog2 q.num.toNat : ℤ) - (natLog2 q.den : ℤ) - 1
      else (natLog2 q.num.toNat : ℤ) - (natLog2 q.den : ℤ) := by
    simp only [qlog2, q2_eq]
  rw [hQ]
  exact bracket_choose q _ hlower hupper

/-! ### Properties of round-to-nearest-even -/

lemma roundEven_eq (x : ℚ) : roundEven x =
    if x - ⌊x⌋ < 1 / 2 then ⌊x⌋
    else if 1 / 2 < x - ⌊x⌋ then ⌊x⌋ + 1
    else if ⌊x⌋ % 2 = 0 then ⌊x⌋ else ⌊x⌋ + 1 := by
  have h12 : Rat.divInt 1 2 = (1 : ℚ) / 2 := by
    rw [Rat.divInt_eq_div]
    norm_num
  simp only [roundEven, qsub_eq, Rat.divInt_one, h12]

lemma roundEven_intCast (m : ℤ) : roundEven ((m : ℚ)) = m := by
  rw [roundEven_eq]
  norm_num

lemma floor_le_roundEven (x : ℚ) : ⌊x⌋ ≤ roundEven x := by
  rw [roundEven_eq]
  split_ifs <;> omega

lemma roundEven_nonneg (x : ℚ) (hx : 0 ≤ x) : 0 ≤ roundEven x :=
  le_trans (Int.floor_nonneg.mpr hx) (floor_le_roundEven x)

lemma rndPos_eq (q : ℚ) : rndPos q =
    (roundEven (q / 2 ^ (qlog2 q - 23)) : ℚ) * 2 ^ (qlog2 q - 23) := by
  rw [rndPos, qmul_eq, Rat.divInt_one, qdiv_eq, q2_eq]

lemma rnd_zero : rnd 0 = 0 := by
  rw [rnd]
  norm_num

lemma rnd_natCast_eq (n : ℕ) (hn : n < 2 ^ 24) : rnd ((n : ℚ)) = n := by
  rcases Nat.eq_zero_or_pos n with h0 | hpos
  · subst h0
    simpa using rnd_zero
  · have hq : (0 : ℚ) < (n : ℚ) := by exact_mod_cast hpos
    have hle : qlog2 ((n : ℚ)) ≤ 23 := by
      by_contra hgt
      push_neg at hgt
      have h1 : ((2 : ℚ)) ^ (24 : ℤ) ≤ 2 ^ qlog2 ((n : ℚ)) :=
        zpow_le_zpow_right₀ (by norm_num) (by omega)
      have h2 := (qlog2_spec ((n : ℚ)) hq).1
      have h3 : ((n : ℚ)) < 2 ^ (24 : ℤ) := by
        rw [show ((24 : ℤ)) = ((24 : ℕ) : ℤ) by norm_num, ← npow_cast_zpow]
        exact_mod_cast hn
      linarith
    rw [rnd, if_pos hq, rndPos_eq]
    have hkZ : (((23 - qlog2 ((n : ℚ))).toNat : ℤ)) = 23 - qlog2 ((n : ℚ)) := by omega
    have hdiv : (n : ℚ) / 2 ^ (qlog2 ((n : ℚ)) - 23) =
        ((n * 2 ^ (23 - qlog2 ((n : ℚ))).toNat : ℕ) : ℚ) := by
      rw [div_eq_iff (zpow_ne_zero _ (by norm_num : (2 : ℚ) ≠ 0))]
      push_cast
      rw [mul_assoc, ← zpow_natCast (2 : ℚ) ((23 - qlog2 ((n : ℚ))).toNat),
         ← zpow_add₀ (by norm_num : (2 : ℚ) ≠ 0),
         show (((23 - qlog2 ((n : ℚ))).toNat : ℤ)) + (qlog2 ((n : ℚ)) - 23) = 0 by omega,
         zpow_zero, mul_one]
    rw [hdiv]
    have hre : roundEven (((n * 2 ^ (23 - qlog2 ((n : ℚ))).toNat : ℕ) : ℚ)) =
        ((n * 2 ^ (23 - qlog2 ((n : ℚ))).toNat : ℕ) : ℤ) := by
      rw [show (((n * 2 ^ (23 - qlog2 ((n : ℚ))).toNat : ℕ) : ℚ)) =
          (((n * 2 ^ (23 - qlog2 ((n : ℚ))).toNat : ℕ) : ℤ) : ℚ) by push_cast; ring]
      exact roundEven_intCast _
    rw [hre]
    push_cast
    rw [mul_assoc, ← zpow_natCast (2 : ℚ) ((23 - qlog2 ((n : ℚ))).toNat),
       ← zpow_add₀ (by norm_num : (2 : ℚ) ≠ 0),
       show (((23 - qlog2 ((n : ℚ))).toNat : ℤ)) + (qlog2 ((n : ℚ)) - 23) = 0 by omega,
       zpow_zero, mul_one]

lemma rnd_nonneg (q : ℚ) (h : 0 ≤ q) : 0 ≤ rnd q := by
  rw [rnd]
  split_ifs with h1 h2
  · rw [rndPos_eq]
    have h0 : (0 : ℚ) < 2 ^ (qlog2 q - 23) := zpow_pos (by norm_num) _
    have hre : (0 : ℚ) ≤ (roundEven (q / 2 ^ (qlog2 q - 23)) : ℚ) := by
      exact_mod_cast roundEven_nonneg _ (le_of_lt (div_pos h1 h0))
    exact mul_nonneg hre (le_of_lt h0)
  · linarith
  · exact le_refl 0

lemma rnd_ge_nat (p : ℕ) (hp : p < 2 ^ 24) (q : ℚ) (hq : (p : ℚ) ≤ q) : (p : ℚ) ≤ rnd q := by
  rcases Nat.eq_zero_or_pos p with h0 | hps
  · subst h0
    simpa using rnd_nonneg q (by simpa using hq)
  · have hqpos : 0 < q := lt_of_lt_of_le (by exact_mod_cast hps) hq
    rw [rnd, if_pos hqpos, rndPos_eq]
    have h2e : (0 : ℚ) < 2 ^ (qlog2 q - 23) := zpow_pos (by norm_num) _
    rcases le_or_lt (qlog2 q) 23 with hle | hgt
    · have hkZ : (((23 - qlog2 q).toNat : ℤ)) = 23 - qlog2 q := by omega
      have hpk : ((p * 2 ^ (23 - qlog2 q).toNat : ℕ) : ℚ) * 2 ^ (qlog2 q - 23) = (p : ℚ) := by
        push_cast
        rw [mul_assoc, ← zpow_natCast (2 : ℚ) ((23 - qlog2 q).toNat),
           ← zpow_add₀ (by norm_num : (2 : ℚ) ≠ 0),
           show (((23 - qlog2 q).toNat : ℤ)) + (qlog2 q - 23) = 0 by omega,
           zpow_zero, mul_one]
      have key : ((p * 2 ^ (23 - qlog2 q).toNat : ℕ) : ℤ) ≤ roundEven (q / 2 ^ (qlog2 q - 23)) := by
        refine le_trans ?_ (floor_le_roundEven _)
        refine Int.le_floor.mpr ?_
        rw [le_div_iff₀ h2e]
        push_cast
        push_cast at hpk
        rw [hpk]
        exact hq
      have hmul : ((p * 2 ^ (23 - qlog2 q).toNat : ℕ) : ℚ) * 2 ^ (qlog2 q - 23) ≤
          (roundEven (q / 2 ^ (qlog2 q - 23)) : ℚ) * 2 ^ (qlog2 q - 23) := by
        refine mul_le_mul_of_nonneg_right ?_ (le_of_lt h2e)
        exact_mod_cast key
      calc (p : ℚ) = ((p * 2 ^ (23 - qlog2 q).toNat : ℕ) : ℚ) * 2 ^ (qlog2 q - 23) := hpk.symm
        _ ≤ _ := hmul
    · have hfl : ((2 ^ 23 : ℕ) : ℤ) ≤ roundEven (q / 2 ^ (qlog2 q - 23)) := by
        refine le_trans ?_ (floor_le_roundEven _)
        refine Int.le_floor.mpr ?_
        rw [le_div_iff₀ h2e]
        calc (((2 ^ 23 : ℕ) : ℤ) : ℚ) * 2 ^ (qlog2 q - 23)
            = (2 : ℚ) ^ ((23 : ℕ) : ℤ) * 2 ^ (qlog2 q - 23) := by
              rw [← npow_cast_zpow]
              push_cast
              ring
          _ = 2 ^ qlog2 q := by
              rw [← zpow_add₀ (by norm_num : (2 : ℚ) ≠ 0)]
              congr 1
              push_cast
              ring
          _ ≤ q := (qlog2_spec q hqpos).1
      have hq1 : (2 : ℚ) ^ (1 : ℤ) ≤ 2 ^ (qlog2 q - 23) :=
        zpow_le_zpow_right₀ (by norm_num) (by omega)
      have hR : ((2 ^ 23 : ℕ) : ℚ) ≤ (roundEven (q / 2 ^ (qlog2 q - 23)) : ℚ) := by
        exact_mod_cast hfl
      have h24 : ((2 ^ 24 : ℕ) : ℚ) ≤
          (roundEven (q / 2 ^ (qlog2 q - 23)) : ℚ) * 2 ^ (qlog2 q - 23) := by
        calc ((2 ^ 24 : ℕ) : ℚ) = (2 : ℚ) ^ ((24 : ℕ) : ℤ) := npow_cast_zpow 24
          _ = (2 : ℚ) ^ ((23 : ℕ) : ℤ) * (2 : ℚ) ^ (1 : ℤ) := by
              rw [← zpow_add₀ (by norm_num : (2 : ℚ) ≠ 0)]
              congr 1
          _ = ((2 ^ 23 : ℕ) : ℚ) * (2 : ℚ) ^ (1 : ℤ) := by rw [npow_cast_zpow]
          _ ≤ _ := mul_le_mul hR hq1 (by positivity) (le_trans (by positivity) hR)
      calc (p : ℚ) ≤ ((2 ^ 24 : ℕ) : ℚ) := by exact_mod_cast le_of_lt hp
        _ ≤ _ := h24

/-! ### The trigger-delay computation -/

lemma fof_eq (n : ℕ) : fof n = rnd ((n : ℚ)) := by
  rw [fof, Rat.divInt_one]
  norm_cast

lemma computeTrigger_eq (b p z : ℕ) :
    computeTrigger b p z =
      (⌊rnd (rnd (rnd (rnd (((1 : ℕ)) : ℚ) - rnd (rnd (((b : ℕ)) : ℚ) / rnd (((100 : ℕ)) : ℚ))) *
          rnd (((p : ℕ)) : ℚ)) + rnd (((z : ℕ)) : ℚ))⌋).toNat := by
  simp only [computeTrigger, fadd, fmul, fsub, fdiv, fof_eq, qadd_eq, qmul_eq, qsub_eq, qdiv_eq]

lemma rnd_one : rnd ((((1 : ℕ)) : ℚ)) = 1 := by
  rw [rnd_natCast_eq 1 (by norm_num)]
  norm_num

lemma rnd_100 : rnd ((((100 : ℕ)) : ℚ)) = 100 := by
  rw [rnd_natCast_eq 100 (by norm_num)]
  norm_num

lemma computeTrigger_zero_ge (p z : ℕ) (hp : p < 2 ^ 24) : p ≤ computeTrigger 0 p z := by
  rw [computeTrigger_eq]
  rw [show ((((0 : ℕ)) : ℚ)) = 0 by norm_num, rnd_zero, rnd_100, rnd_one]
  rw [show ((0 : ℚ) / 100) = 0 by norm_num, rnd_zero]
  rw [show ((1 : ℚ) - 0) = 1 by norm_num]
  rw [show ((1 : ℚ)) = (((1 : ℕ)) : ℚ) by norm_num, rnd_one, one_mul]
  rw [rnd_natCast_eq p hp, rnd_natCast_eq p hp]
  have hzn : (0 : ℚ) ≤ rnd ((z : ℚ)) := rnd_nonneg _ (by positivity)
  have hsum : ((p : ℚ)) ≤ (p : ℚ) + rnd ((z : ℚ)) := by linarith
  have hrnd := rnd_ge_nat p hp _ hsum
  have hfloor : (p : ℤ) ≤ ⌊rnd ((p : ℚ) + rnd ((z : ℚ)))⌋ :=
    Int.le_floor.mpr (by exact_mod_cast hrnd)
  omega

lemma computeTrigger_50 (z : ℕ) (hz : z < 2 ^ 23) : computeTrigger 50 10000 z = 5000 + z := by
  rw [computeTrigger_eq]
  rw [show rnd ((((50 : ℕ)) : ℚ)) = 50 by rw [rnd_natCast_eq 50 (by norm_num)]; norm_num]
  rw [rnd_100, rnd_one]
  rw [show rnd ((((10000 : ℕ)) : ℚ)) = 10000 by rw [rnd_natCast_eq 10000 (by norm_num)]; norm_num]
  have hd2 : Rat.divInt 1 2 = (1 : ℚ) / 2 := by
    rw [Rat.divInt_eq_div]
    norm_num
  have hhalfd : rnd (Rat.divInt 1 2) = Rat.divInt 1 2 := by decide
  have hhalf : rnd ((50 : ℚ) / 100) = (1 : ℚ) / 2 := by
    rw [show ((50 : ℚ) / 100) = (1 : ℚ) / 2 by norm_num, ← hd2, hhalfd]
  rw [hhalf]
  rw [show ((1 : ℚ) - 1 / 2) = 1 / 2 by norm_num]
  have hrhalf : rnd ((1 : ℚ) / 2) = (1 : ℚ) / 2 := by
    rw [← hd2, hhalfd]
  rw [hrhalf]
  rw [show ((1 : ℚ) / 2 * 10000) = 5000 by norm_num]
  rw [show ((5000 : ℚ)) = (((5000 : ℕ)) : ℚ) by norm_num, rnd_natCast_eq 5000 (by norm_num)]
  rw [rnd_natCast_eq z (by omega)]
  rw [show ((((5000 : ℕ)) : ℚ) + (z : ℚ)) = (((5000 + z : ℕ)) : ℚ) by push_cast; ring]
  rw [rnd_natCast_eq (5000 + z) (by omega), Int.floor_natCast]
  omega

/-! ### Run invariants of the state machine -/

lemma periodMod_lt (t r : ℕ) : (t % 2 ^ 64 + 2 ^ 64 - r) % 2 ^ 64 % 2 ^ 16 < 2 ^ 16 :=
  Nat.mod_lt _ (by norm_num)

lemma step_zero_preserve (s : DimmerState) (e : Ev)
    (hb : s.brightness = 0) (ha : s.timer_armed = false) (ho : s.output_pin = false)
    (ht : s.period ≤ s.trigger_time) (hp : s.period < 2 ^ 16) :
    (stepEv s e).brightness = 0 ∧ (stepEv s e).timer_armed = false ∧
      (stepEv s e).output_pin = false ∧
      (stepEv s e).period ≤ (stepEv s e).trigger_time ∧ (stepEv s e).period < 2 ^ 16 := by
  cases e with
  | fire =>
    simp only [stepEv, ha]
    simp only [Bool.false_eq_true, if_false]
    exact ⟨hb, ha, ho, ht, hp⟩
  | edge t lvl =>
    simp only [stepEv]
    rw [crossing_zero_isr_handler]
    split_ifs with h1 h2 h3
    · exact absurd h2.2 (by omega)
    · rw [smart_dimmer_control]
      split_ifs with h4 h5
      · dsimp only
        refine ⟨hb, ha, rfl, ?_, periodMod_lt t s.rising_time⟩
        rw [hb]
        exact computeTrigger_zero_ge _ _ (lt_trans (periodMod_lt t s.rising_time) (by norm_num))
      · exact absurd h1.1 h4
      · exact absurd h1.1 h4
    · rw [smart_dimmer_control]
      split_ifs with h4 h5
      · exact absurd h4 (by simp [h3.1])
      · exact ⟨hb, ha, ho, ht, hp⟩
      · exact ⟨hb, ha, ho, ht, hp⟩
    · rw [smart_dimmer_control]
      split_ifs with h4 h5
      · dsimp only
        refine ⟨hb, ha, ho, ?_, hp⟩
        rw [hb]
        exact computeTrigger_zero_ge _ _ (lt_trans hp (by norm_num))
      · exact ⟨hb, ha, ho, ht, hp⟩
      · exact ⟨hb, ha, ho, ht, hp⟩

lemma run_zero_invariant : ∀ (evs : List Ev) (s : DimmerState),
    s.brightness = 0 → s.timer_armed = false → s.output_pin = false →
    s.period ≤ s.trigger_time → s.period < 2 ^ 16 →
    (evs.foldl stepEv s).timer_armed = false ∧ (evs.foldl stepEv s).output_pin = false := by
  intro evs
  induction evs with
  | nil => intro s _ ha ho _ _; exact ⟨ha, ho⟩
  | cons e rest ih =>
    intro s hb ha ho ht hp
    obtain ⟨h1, h2, h3, h4, h5⟩ := step_zero_preserve s e hb ha ho ht hp
    exact ih (stepEv s e) h1 h2 h3 h4 h5

lemma step_trig_armed (s : DimmerState) (e : Ev) (h : s.is_triggering = s.timer_armed) :
    (stepEv s e).is_triggering = (stepEv s e).timer_armed := by
  cases e with
  | fire =>
    simp only [stepEv]
    split_ifs with hf
    · rfl
    · exact h
  | edge t lvl =>
    simp only [stepEv]
    rw [crossing_zero_isr_handler]
    split_ifs with h1 h2 h3
    · rw [smart_dimmer_control]
      split_ifs <;> rfl
    · rw [smart_dimmer_control]
      split_ifs <;> exact h
    · rw [smart_dimmer_control]
      split_ifs <;> exact h
    · rw [smart_dimmer_control]
      split_ifs <;> exact h

lemma foldl_trig_armed : ∀ (evs : List Ev) (s : DimmerState),
    s.is_triggering = s.timer_armed →
    (evs.foldl stepEv s).is_triggering = (evs.foldl stepEv s).timer_armed := by
  intro evs
  induction evs with
  | nil => intro s h; exact h
  | cons e rest ih =>
    intro s h
    exact ih (stepEv s e) (step_trig_armed s e h)

lemma step_nonrising_flags (s : DimmerState) (t : ℕ) (lvl : Bool)
    (hnr : ¬(lvl = true ∧ s.is_crossing_zero = false))
    (ha : s.timer_armed = false) (htr : s.is_triggering = false) (ho : s.output_pin = false) :
    (stepEv s (.edge t lvl)).timer_armed = false ∧
      (stepEv s (.edge t lvl)).is_triggering = false ∧
      (stepEv s (.edge t lvl)).output_pin = false := by
  simp only [stepEv]
  rw [crossing_zero_isr_handler]
  split_ifs with h1
  · rw [smart_dimmer_control]
    split_ifs with h4 h5
    · exact absurd h4 (by simp [h1.1])
    · exact ⟨ha, htr, ho⟩
    · exact ⟨ha, htr, ho⟩
  · rw [smart_dimmer_control]
    split_ifs with h4 h5
    · exact ⟨ha, htr, ho⟩
    · exact ⟨ha, htr, ho⟩
    · exact ⟨ha, htr, ho⟩

lemma step_rising_period0_flags (s : DimmerState) (t : ℕ) (lvl : Bool)
    (hrise : lvl = true ∧ s.is_crossing_zero = false) (hper : s.period = 0)
    (ha : s.timer_armed = false) (htr : s.is_triggering = false) :
    (stepEv s (.edge t lvl)).timer_armed = false ∧
      (stepEv s (.edge t lvl)).is_triggering = false ∧
      (stepEv s (.edge t lvl)).output_pin = false := by
  simp only [stepEv]
  rw [crossing_zero_isr_handler]
  split_ifs with harm
  · exact absurd harm.2 (by omega)
  · rw [smart_dimmer_control]
    split_ifs <;> exact ⟨ha, htr, rfl⟩

lemma foldl_norising : ∀ (evs : List Ev) (s : DimmerState),
    risingsFrom s evs = 0 → s.timer_armed = false → s.is_triggering = false →
    s.output_pin = false →
    (evs.foldl stepEv s).timer_armed = false ∧ (evs.foldl stepEv s).is_triggering = false ∧
      (evs.foldl stepEv s).output_pin = false := by
  intro evs
  induction evs with
  | nil => intro s _ ha htr ho; exact ⟨ha, htr, ho⟩
  | cons e rest ih =>
    intro s hr ha htr ho
    cases e with
    | fire =>
      have hs : stepEv s .fire = s := by simp [stepEv, ha]
      simp only [risingsFrom, hs] at hr
      simp only [List.foldl, hs]
      exact ih s (by omega) ha htr ho
    | edge t lvl =>
      simp only [risingsFrom] at hr
      have hnr : ¬(lvl = true ∧ s.is_crossing_zero = false) := by
        intro hcon
        rw [if_pos hcon] at hr
        omega
      rw [if_neg hnr] at hr
      obtain ⟨h1, h2, h3⟩ := step_nonrising_flags s t lvl hnr ha htr ho
      simp only [List.foldl]
      exact ih _ (by omega) h1 h2 h3

lemma step_nonrising_period (s : DimmerState) (t : ℕ) (lvl : Bool)
    (hnr : ¬(lvl = true ∧ s.is_crossing_zero = false)) (hper : s.period = 0) :
    (stepEv s (.edge t lvl)).period = 0 := by
  simp only [stepEv]
  rw [crossing_zero_isr_handler]
  split_ifs with h1
  · rw [smart_dimmer_control]
    split_ifs <;> exact hper
  · rw [smart_dimmer_control]
    split_ifs <;> exact hper

lemma foldl_startup : ∀ (evs : List Ev) (s : DimmerState),
    risingsFrom s evs ≤ 1 → s.period = 0 → s.timer_armed = false →
    s.is_triggering = false → s.output_pin = false →
    (evs.foldl stepEv s).timer_armed = false ∧ (evs.foldl stepEv s).is_triggering = false ∧
      (evs.foldl stepEv s).output_pin = false := by
  intro evs
  induction evs with
  | nil => intro s _ _ ha htr ho; exact ⟨ha, htr, ho⟩
  | cons e rest ih =>
    intro s hr hper ha htr ho
    cases e with
    | fire =>
      have hs : stepEv s .fire = s := by simp [stepEv, ha]
      simp only [risingsFrom, hs] at hr
      simp only [List.foldl, hs]
      exact ih s (by omega) hper ha htr ho
    | edge t lvl =>
      simp only [risingsFrom] at hr
      by_cases hrise : lvl = true ∧ s.is_crossing_zero = false
      · rw [if_pos hrise] at hr
        obtain ⟨h1, h2, h3⟩ := step_rising_period0_flags s t lvl hrise hper ha htr
        simp only [List.foldl]
        exact foldl_norising rest _ (by omega) h1 h2 h3
      · rw [if_neg hrise] at hr
        obtain ⟨h1, h2, h3⟩ := step_nonrising_flags s t lvl hrise ha htr ho
        simp only [List.foldl]
        exact ih _ (by omega) (step_nonrising_period s t lvl hrise hper) h1 h2 h3

/-! ### Time-translation invariance of the controller -/

lemma isr_shift (d t : ℕ) (lvl : Bool) (s : DimmerState)
    (hrb : s.rising_time + d < 2 ^ 64) (htb : t + d < 2 ^ 64) :
    crossing_zero_isr_handler (t + d) lvl (shiftSt d s) =
      shiftSt d (crossing_zero_isr_handler t lvl s) := by
  rw [crossing_zero_isr_handler, crossing_zero_isr_handler]
  simp only [shiftSt]
  split_ifs with h1 h2 h3
  · ext <;> first | rfl | (dsimp only; omega) | omega
  · ext <;> first | rfl | (dsimp only; omega) | omega
  · ext <;> first | rfl | (dsimp only; omega) | omega
  · ext <;> first | rfl | (dsimp only; omega) | omega

lemma task_shift (d : ℕ) (s : DimmerState) (hr : 0 < s.rising_time)
    (hf : 0 < s.falling_time) :
    smart_dimmer_control (shiftSt d s) = shiftSt d (smart_dimmer_control s) := by
  rw [smart_dimmer_control, smart_dimmer_control]
  simp only [shiftSt]
  split_ifs with h1 h2 h3 h4
  · rfl
  · ext <;> first | rfl | (dsimp only; omega) | omega
  · exact absurd ⟨h2.1, by omega, by omega⟩ h3
  · exact absurd ⟨h4.1, by omega, by omega⟩ h2
  · rfl

lemma step_shift (d : ℕ) (s : DimmerState) (e : Ev)
    (hr : 0 < s.rising_time) (hrb : s.rising_time + d < 2 ^ 64)
    (hf : 0 < s.falling_time) (hfb : s.falling_time + d < 2 ^ 64)
    (he : ∀ t lvl, e = .edge t lvl → 0 < t ∧ t + d < 2 ^ 64) :
    stepEv (shiftSt d s) (shiftEv d e) = shiftSt d (stepEv s e) := by
  cases e with
  | fire =>
    simp only [stepEv, shiftEv, shiftSt, trigger_timer_callback]
    split_ifs with h1
    · ext <;> first | rfl | (dsimp only)
    · rfl
  | edge t lvl =>
    obtain ⟨ht0, htb⟩ := he t lvl rfl
    simp only [stepEv, shiftEv]
    rw [isr_shift d t lvl s hrb htb]
    apply task_shift
    · rw [crossing_zero_isr_handler]
      split_ifs <;> dsimp only <;> omega
    · rw [crossing_zero_isr_handler]
      split_ifs <;> dsimp only <;> omega

lemma step_shift_bounds (d : ℕ) (s : DimmerState) (e : Ev)
    (hr : 0 < s.rising_time) (hrb : s.rising_time + d < 2 ^ 64)
    (hf : 0 < s.falling_time) (hfb : s.falling_time + d < 2 ^ 64)
    (he : ∀ t lvl, e = .edge t lvl → 0 < t ∧ t + d < 2 ^ 64) :
    0 < (stepEv s e).rising_time ∧ (stepEv s e).rising_time + d < 2 ^ 64 ∧
      0 < (stepEv s e).falling_time ∧ (stepEv s e).falling_time + d < 2 ^ 64 := by
  cases e with
  | fire =>
    simp only [stepEv]
    split_ifs <;> exact ⟨hr, hrb, hf, hfb⟩
  | edge t lvl =>
    obtain ⟨ht0, htb⟩ := he t lvl rfl
    simp only [stepEv]
    rw [crossing_zero_isr_handler]
    split_ifs <;> rw [smart_dimmer_control] <;> split_ifs <;>
      refine ⟨?_, ?_, ?_, ?_⟩ <;> dsimp only <;> omega

lemma trigTrace_shift : ∀ (evs : List Ev) (d : ℕ) (s : DimmerState),
    0 < s.rising_time → s.rising_time + d < 2 ^ 64 →
    0 < s.falling_time → s.falling_time + d < 2 ^ 64 →
    (∀ t lvl, Ev.edge t lvl ∈ evs → 0 < t ∧ t + d < 2 ^ 64) →
    trigTrace (shiftSt d s) (evs.map (shiftEv d)) = trigTrace s evs := by
  intro evs
  induction evs with
  | nil => intro d s _ _ _ _ _; rfl
  | cons e rest ih =>
    intro d s hr hrb hf hfb he
    have hhd : ∀ t lvl, e = .edge t lvl → 0 < t ∧ t + d < 2 ^ 64 :=
      fun t lvl hh => he t lvl (hh ▸ List.mem_cons_self e rest)
    have hstep := step_shift d s e hr hrb hf hfb hhd
    simp only [List.map, trigTrace]
    rw [hstep]
    obtain ⟨b1, b2, b3, b4⟩ := step_shift_bounds d s e hr hrb hf hfb hhd
    congr 1
    exact ih d (stepEv s e) b1 b2 b3 b4 (fun t lvl hm => he t lvl (List.mem_cons_of_mem e hm))

/-! ### HTTP handler lemmas -/

lemma firstSplit_of_not_mem (c : Char) : ∀ (l : List Char), c ∉ l → firstSplit c l = (l, none) := by
  intro l
  induction l with
  | nil => intro _; rfl
  | cons x xs ih =>
    intro h
    simp only [List.mem_cons, not_or] at h
    simp only [firstSplit]
    rw [if_neg (fun hx => h.1 hx.symm), ih h.2]

lemma firstSplit_append (c : Char) (b : List Char) : ∀ (a : List Char), c ∉ a →
    firstSplit c (a ++ c :: b) = (a, some b) := by
  intro a
  induction a with
  | nil =>
    intro _
    simp only [List.nil_append, firstSplit, if_pos]
  | cons x xs ih =>
    intro h
    simp only [List.mem_cons, not_or] at h
    simp only [List.cons_append, firstSplit, List.append_eq]
    rw [if_neg (fun hx => h.1 hx.symm), ih h.2]

lemma bq_length (v : List Char) : (bq v).length = 11 + v.length := by
  simp [bq, bKey]
  omega

lemma findValue_bq (v : List Char) (hv : ('&') ∉ v) :
    findValue bKey ((bq v).length + 1) (bq v) = some v := by
  have h1 : firstSplit ('&') (bq v) = (bq v, none) := by
    refine firstSplit_of_not_mem _ _ ?_
    simp only [bq, bKey, List.mem_append, List.mem_cons]
    simp only [List.not_mem_nil, or_false]
    intro hmem
    rcases hmem with h | h
    · rcases h with h | h | h | h | h | h | h | h | h | h <;> exact absurd h (by decide)
    · rcases h with h | h
      · exact absurd h (by decide)
      · exact hv h
  have h2 : firstSplit ('=') (bq v) = (bKey, some v) :=
    firstSplit_append _ _ _ (by decide)
  rw [findValue, h1]
  simp only [h2]
  simp

lemma brightnessStore_bq (stored : ℕ) (v : List Char) (hv : ('&') ∉ v) (hl : v.length ≤ 4) :
    brightnessStore stored (bq v) = (specClamp (atoi v)).toNat := by
  rw [brightnessStore]
  rw [if_pos (by rw [bq_length]; omega : 1 ≤ (bq v).length ∧ (bq v).length ≤ 15)]
  rw [findValue_bq v hv]
  simp only []
  rw [if_pos hl, specClamp]
  split_ifs with hA hB
  · rfl
  · rfl
  · rfl

lemma brightnessStore_le (stored : ℕ) (q : List Char) (h : stored ≤ 100) :
    brightnessStore stored q ≤ 100 := by
  rw [brightnessStore]
  split_ifs with h1
  · split
    · split_ifs with h2 h3 h4 <;> omega
    · exact h
  · exact h

lemma foldl_store_le : ∀ (qs : List (List Char)) (st : ℕ), st ≤ 100 →
    (qs.foldl (fun a q => brightnessStore a q) st) ≤ 100 := by
  intro qs
  induction qs with
  | nil => intro st h; exact h
  | cons q rest ih =>
    intro st h
    exact ih _ (brightnessStore_le st q h)

lemma atoi_natRepr_small : ∀ n < 101, atoi (natRepr n) = (n : ℤ) ∧ (natRepr n).length ≤ 4 := by
  decide

lemma brightnessStore_long (stored : ℕ) (q : List Char) (h : 15 < q.length) :
    brightnessStore stored q = stored := by
  rw [brightnessStore]
  rw [if_neg (by omega)]

lemma brightnessStore_trunc (stored : ℕ) (q : List Char) (v : List Char)
    (hfv : findValue bKey (q.length + 1) q = some v) (hl : 4 < v.length) :
    brightnessStore stored q = stored := by
  rw [brightnessStore]
  split_ifs with h1
  · rw [hfv]
    simp only []
    rw [if_neg (by omega)]
  · rfl

/-! ### Claims -/

/-- Claim C1, counterexample: the background task computes the trigger delay
in binary32 float arithmetic, so the stored value can differ from the exact
formula `(1 - b/100) * p + z`.  At brightness 33, period 10000 µs, offset 0
the code stores 6699 µs while the exact formula gives 6700 µs. -/
theorem claim_C1_counterexample :
    (smart_dimmer_control
        { rising_time := 100, falling_time := 200, zero_crossing_time := 0,
          trigger_time := 0, period := 10000, brightness := 33,
          is_crossing_zero := true, is_triggering := false, output_pin := false,
          timer_armed := false, timer_delay := 0 }).trigger_time = 6699 ∧
      ((1 : ℚ) - 33 / 100) * 10000 + 0 = 6700 ∧ (6699 : ℕ) ≠ 6700 :=
  ⟨by decide, by norm_num, by decide⟩

/-- Claim C1 (amended): after a rising edge the background task stores
`trigger_delay` as the binary32 evaluation of `(1 - b/100) * p + z` truncated
toward zero, which can fall below the exact value by one unit; for
brightness 50 and period 10000 µs the computation is exact, and for every
offset `z < 2^23` the stored delay is `5000 + z` µs — in particular 5100 µs
for `z = 100` µs. -/
theorem claim_C1_amended (s : DimmerState) (hicz : s.is_crossing_zero = true)
    (hb : s.brightness = 50) (hp : s.period = 10000) (hz : s.zero_crossing_time < 2 ^ 23) :
    (smart_dimmer_control s).trigger_time = 5000 + s.zero_crossing_time := by
  rw [smart_dimmer_control, if_pos hicz]
  dsimp only
  rw [hb, hp]
  exact computeTrigger_50 s.zero_crossing_time hz

/-- Claim C1, witness: the amended claim at the spec's end-to-end scenario
(brightness 50, period 10000 µs, offset 100 µs ↦ 5100 µs). -/
theorem claim_C1_witness :
    (smart_dimmer_control
        { rising_time := 20000, falling_time := 10100, zero_crossing_time := 100,
          trigger_time := 0, period := 10000, brightness := 50,
          is_crossing_zero := true, is_triggering := false, output_pin := false,
          timer_armed := false, timer_delay := 0 }).trigger_time = 5100 := by
  rw [claim_C1_amended _ rfl rfl rfl (by norm_num)]
  rfl

/-- Claim C2: at a rising edge with `trigger_delay ≥ period` the one-shot
timer is not armed and the output is not asserted that cycle; and starting
from reset with brightness 0, the timer is never armed and the output is
never asserted in any run. -/
theorem claim_C2 :
    (∀ (s : DimmerState) (t : ℕ), s.is_crossing_zero = false →
      s.period ≤ s.trigger_time →
      (stepEv s (Ev.edge t true)).timer_armed = s.timer_armed ∧
        (stepEv s (Ev.edge t true)).output_pin = false) ∧
      ∀ evs : List Ev, (run 0 evs).timer_armed = false ∧ (run 0 evs).output_pin = false := by
  constructor
  · intro s t hicz hge
    simp only [stepEv]
    rw [crossing_zero_isr_handler, if_pos ⟨rfl, hicz⟩,
       if_neg (fun hc => absurd hc.2 (by omega))]
    rw [smart_dimmer_control]
    split_ifs <;> exact ⟨rfl, rfl⟩
  · intro evs
    exact run_zero_invariant evs (initSt 0) rfl rfl rfl (le_refl _) (by decide)

/-- Claim C2, witness: a concrete rising edge in the dead zone
(`trigger_delay = period = 10000`) does not arm the timer, and a concrete
brightness-0 run never asserts the output. -/
theorem claim_C2_witness :
    ((stepEv ⟨10000, 10100, 100, 10000, 10000, 0, false, false, false, false, 0⟩
        (Ev.edge 20000 true)).timer_armed = false ∧
      (stepEv ⟨10000, 10100, 100, 10000, 10000, 0, false, false, false, false, 0⟩
        (Ev.edge 20000 true)).output_pin = false) ∧
      (run 0 [Ev.edge 10000 true, Ev.edge 10100 false, Ev.edge 20000 true]).timer_armed = false ∧
      (run 0 [Ev.edge 10000 true, Ev.edge 10100 false, Ev.edge 20000 true]).output_pin = false := by
  refine ⟨?_, claim_C2.2 [Ev.edge 10000 true, Ev.edge 10100 false, Ev.edge 20000 true]⟩
  have h := claim_C2.1 ⟨10000, 10100, 100, 10000, 10000, 0, false, false, false, false, 0⟩
    20000 rfl (le_refl _)
  exact ⟨h.1, h.2⟩

/-- Claim C3: every integer input extracted by the HTTP handler is stored
clamped to `[0, 100]`; any sequence of writes starting from 0 keeps the
stored brightness in `[0, 100]`; and the response is the decimal string of
the stored brightness, which parses back to that in-range value. -/
theorem claim_C3 (stored : ℕ) (q : List Char) (hst : stored ≤ 100) :
    (http_request_handler stored q).1 ≤ 100 ∧
      (http_request_handler stored q).2 = natRepr (http_request_handler stored q).1 ∧
      atoi (natRepr (http_request_handler stored q).1) = ((http_request_handler stored q).1 : ℤ) ∧
      (∀ v : List Char, ('&') ∉ v → v.length ≤ 4 →
        ((http_request_handler stored (bq v)).1 : ℤ) = specClamp (atoi v)) ∧
      ∀ qs : List (List Char), (qs.foldl (fun a qq => brightnessStore a qq) 0) ≤ 100 := by
  have hle : (http_request_handler stored q).1 ≤ 100 := brightnessStore_le stored q hst
  refine ⟨hle, rfl, ?_, ?_, ?_⟩
  · exact (atoi_natRepr_small _ (by omega)).1
  · intro v hv hl
    show ((brightnessStore stored (bq v) : ℕ) : ℤ) = specClamp (atoi v)
    rw [brightnessStore_bq stored v hv hl]
    have hnn : 0 ≤ specClamp (atoi v) := by
      rw [specClamp]
      split_ifs <;> omega
    omega
  · intro qs
    exact foldl_store_le qs 0 (by norm_num)

/-- Claim C3, witness: writing `brightness=7` over a stored value of 50
stores `clamp(7) = 7` and keeps the store in range. -/
theorem claim_C3_witness :
    (http_request_handler 50 (bq ['7'])).1 ≤ 100 ∧
      ((http_request_handler 50 (bq ['7'])).1 : ℤ) = specClamp (atoi ['7']) := by
  have h := claim_C3 50 (bq ['7']) (by norm_num)
  exact ⟨h.1, h.2.2.2.1 ['7'] (by decide) (by decide)⟩

/-- Claim C4, counterexample: an out-of-range numeric input does NOT leave
the stored value unchanged — writing `brightness=500` over a stored value of
50 stores the clamped value 100. -/
theorem claim_C4_counterexample :
    (http_request_handler 50 (bq ['5', '0', '0'])).1 = 100 ∧ (100 : ℕ) ≠ 50 :=
  ⟨by decide, by decide⟩

/-- Claim C4 (amended): any value string that is successfully extracted is
converted with `atoi` (non-numeric input yields 0) and the clamped result is
stored, replacing the previous value; the stored value is left unchanged only
when parameter extraction fails (query string empty or longer than 15
characters, `brightness` key absent, or value longer than 4 characters); the
response reports the stored value after the operation. -/
theorem claim_C4_amended (stored : ℕ) (v : List Char) (hv : ('&') ∉ v) (hl : v.length ≤ 4) :
    ((http_request_handler stored (bq v)).1 : ℤ) = specClamp (atoi v) ∧
      (∀ q : List Char, 15 < q.length → (http_request_handler stored q).1 = stored) ∧
      (∀ q w : List Char, findValue bKey (q.length + 1) q = some w → 4 < w.length →
        (http_request_handler stored q).1 = stored) ∧
      (http_request_handler stored (bq v)).2 = natRepr (specClamp (atoi v)).toNat := by
  have h1 : (http_request_handler stored (bq v)).1 = (specClamp (atoi v)).toNat :=
    brightnessStore_bq stored v hv hl
  have hnn : 0 ≤ specClamp (atoi v) := by
    rw [specClamp]
    split_ifs <;> omega
  refine ⟨by rw [h1]; omega, ?_, ?_, ?_⟩
  · intro q hq
    exact brightnessStore_long stored q hq
  · intro q w hfv hw
    exact brightnessStore_trunc stored q w hfv hw
  · show natRepr (brightnessStore stored (bq v)) = _
    rw [brightnessStore_bq stored v hv hl]

/-- Claim C4, witness: non-numeric input `brightness=abc` stores
`clamp(atoi "abc") = 0`, and an over-long query leaves the store unchanged. -/
theorem claim_C4_witness :
    ((http_request_handler 7 (bq ['a', 'b', 'c'])).1 : ℤ) = specClamp (atoi ['a', 'b', 'c']) ∧
      (http_request_handler 7 (bq ['1', '2', '3', '4', '5'])).1 = 7 := by
  have h := claim_C4_amended 7 ['a', 'b', 'c'] (by decide) (by decide)
  exact ⟨h.1, h.2.1 _ (by decide)⟩

/-- Claim C5: on a rising edge the ISR is the sequential composition of the
spec's three phases — (1) deassert the output unconditionally, (2) arm the
one-shot timer using the not-yet-updated `trigger_time` and `period` and set
`is_triggering`, (3) only then store the new period and rising timestamp —
followed by the unconditional `is_crossing_zero` update. -/
theorem claim_C5 (s : DimmerState) (t : ℕ) (h : s.is_crossing_zero = false) :
    crossing_zero_isr_handler t true s =
      { spec_measure t (spec_arm (spec_deassert s)) with is_crossing_zero := true } := by
  rw [crossing_zero_isr_handler, spec_measure, spec_arm, spec_deassert]
  rw [if_pos ⟨rfl, h⟩]
  split_ifs with h2
  · rfl
  · rfl

/-- Claim C5, witness: the phase decomposition at a concrete pre-state in
which the arming condition holds. -/
theorem claim_C5_witness :
    crossing_zero_isr_handler 20000 true
        ⟨10000, 10100, 50, 5000, 10000, 50, false, false, true, false, 0⟩ =
      { spec_measure 20000 (spec_arm (spec_deassert
          ⟨10000, 10100, 50, 5000, 10000, 50, false, false, true, false, 0⟩)) with
        is_crossing_zero := true } :=
  claim_C5 _ 20000 rfl

/-- Claim C6: after a falling edge with both timestamps nonzero the
background task stores `zero_crossing_offset = (falling_time - rising_time) / 2`
(the `uint64` subtraction agrees with the exact one when
`rising_time ≤ falling_time < 2^64`). -/
theorem claim_C6 (s : DimmerState) (h1 : s.is_crossing_zero = false)
    (h2 : s.rising_time ≠ 0) (h3 : s.falling_time ≠ 0)
    (h4 : s.rising_time ≤ s.falling_time) (h5 : s.falling_time < 2 ^ 64) :
    (smart_dimmer_control s).zero_crossing_time = (s.falling_time - s.rising_time) / 2 := by
  rw [smart_dimmer_control]
  rw [if_neg (by simp [h1]), if_pos ⟨h1, h2, h3⟩]
  dsimp only
  omega

/-- Claim C6, witness: the synthetic stream of the spec — rising at
10000 µs, falling at 10200 µs (pulse width 200 µs) — stores
`zero_crossing_offset = 100` µs, both through the claim theorem and in the
event-list run from reset. -/
theorem claim_C6_witness :
    (smart_dimmer_control
        (crossing_zero_isr_handler 10200 false (run 0 [Ev.edge 10000 true]))).zero_crossing_time
        = 100 ∧
      (run 0 [Ev.edge 10000 true, Ev.edge 10200 false]).zero_crossing_time = 100 := by
  have h := claim_C6 (crossing_zero_isr_handler 10200 false (run 0 [Ev.edge 10000 true]))
    (by decide) (by decide) (by decide) (by decide) (by decide)
  refine ⟨?_, by decide⟩
  rw [h]
  decide

/-- Claim C7: in every reachable state `is_triggering` equals the pending
flag of the one-shot timer (it is set exactly between arming and expiry);
the expiry callback asserts the output and clears `is_triggering`; and the
output can only go from asserted to deasserted through a rising-edge event. -/
theorem claim_C7 (b : ℕ) (evs : List Ev) :
    (run b evs).is_triggering = (run b evs).timer_armed ∧
      ((run b evs).timer_armed = true →
        (stepEv (run b evs) Ev.fire).output_pin = true ∧
          (stepEv (run b evs) Ev.fire).is_triggering = false) ∧
      ∀ e : Ev, (run b evs).output_pin = true → (stepEv (run b evs) e).output_pin = false →
        ∃ t, e = Ev.edge t true ∧ (run b evs).is_crossing_zero = false := by
  refine ⟨foldl_trig_armed evs (initSt b) rfl, ?_, ?_⟩
  · intro harm
    simp only [stepEv]
    rw [if_pos harm]
    exact ⟨rfl, rfl⟩
  · intro e hout hstep
    cases e with
    | fire =>
      exfalso
      simp only [stepEv] at hstep
      by_cases harm : (run b evs).timer_armed = true
      · rw [if_pos harm] at hstep
        simp [trigger_timer_callback] at hstep
      · rw [if_neg harm] at hstep
        rw [hstep] at hout
        exact absurd hout (by decide)
    | edge t lvl =>
      by_cases hrise : lvl = true ∧ (run b evs).is_crossing_zero = false
      · exact ⟨t, by rw [hrise.1], hrise.2⟩
      · exfalso
        have hsame : (stepEv (run b evs) (.edge t lvl)).output_pin =
            (run b evs).output_pin := by
          simp only [stepEv]
          rw [crossing_zero_isr_handler, if_neg hrise]
          split_ifs with hx
          · rw [smart_dimmer_control]
            split_ifs <;> rfl
          · rw [smart_dimmer_control]
            split_ifs <;> rfl
        rw [hsame, hout] at hstep
        exact absurd hstep (by decide)

/-- Claim C7, witness: in a concrete run that arms the timer,
`is_triggering` matches the pending timer, firing asserts the output and
clears the flag, and the subsequent deassertion happens at a rising edge. -/
theorem claim_C7_witness :
    ((run 100 [Ev.edge 10000 true, Ev.edge 10100 false, Ev.edge 20000 true]).is_triggering =
        (run 100 [Ev.edge 10000 true, Ev.edge 10100 false, Ev.edge 20000 true]).timer_armed ∧
      (stepEv (run 100 [Ev.edge 10000 true, Ev.edge 10100 false, Ev.edge 20000 true])
          Ev.fire).output_pin = true ∧
      (stepEv (run 100 [Ev.edge 10000 true, Ev.edge 10100 false, Ev.edge 20000 true])
          Ev.fire).is_triggering = false) ∧
      ∃ t, Ev.edge 40000 true = Ev.edge t true ∧
        (run 100 [Ev.edge 10000 true, Ev.edge 10100 false, Ev.edge 20000 true, Ev.fire,
          Ev.edge 20100 false]).is_crossing_zero = false := by
  refine ⟨⟨(claim_C7 100 [Ev.edge 10000 true, Ev.edge 10100 false, Ev.edge 20000 true]).1,
    ((claim_C7 100 [Ev.edge 10000 true, Ev.edge 10100 false, Ev.edge 20000 true]).2.1
      (by decide)).1,
    ((claim_C7 100 [Ev.edge 10000 true, Ev.edge 10100 false, Ev.edge 20000 true]).2.1
      (by decide)).2⟩, ?_⟩
  exact (claim_C7 100 [Ev.edge 10000 true, Ev.edge 10100 false, Ev.edge 20000 true, Ev.fire,
    Ev.edge 20100 false]).2.2 (Ev.edge 40000 true) (by decide) (by decide)

/-- Claim C8: from reset, as long as at most one rising edge has been
processed (so no full line cycle has been observed), the timer is never
armed, no trigger is pending and the output is never asserted — the
dead-zone check `trigger_delay < period` with the initial `period = 0`
suppresses all firing during start-up. -/
theorem claim_C8 (b : ℕ) (evs : List Ev) (h : risings b evs ≤ 1) :
    (run b evs).timer_armed = false ∧ (run b evs).is_triggering = false ∧
      (run b evs).output_pin = false :=
  foldl_startup evs (initSt b) h rfl rfl rfl rfl

/-- Claim C8, witness: a run containing one rising edge, a falling edge and
a (vacuous) timer event arms nothing and keeps the output low. -/
theorem claim_C8_witness :
    risings 80 [Ev.edge 10000 true, Ev.edge 10100 false, Ev.fire] ≤ 1 ∧
      (run 80 [Ev.edge 10000 true, Ev.edge 10100 false, Ev.fire]).timer_armed = false ∧
      (run 80 [Ev.edge 10000 true, Ev.edge 10100 false, Ev.fire]).is_triggering = false ∧
      (run 80 [Ev.edge 10000 true, Ev.edge 10100 false, Ev.fire]).output_pin = false :=
  ⟨by decide, claim_C8 80 [Ev.edge 10000 true, Ev.edge 10100 false, Ev.fire] (by decide)⟩

/-- Claim C9: the trigger-delay trace is a function of the explicit
controller state and the edge stream alone — feeding the same rising/falling
sequence (same levels and same inter-edge times, i.e. the same stream up to
a uniform time shift `d`) to a controller whose visible state agrees yields
the identical `trigger_delay` sequence; no hidden state accumulates.  With
`d = 0` this says two runs over the same edge stream from the same state
coincide. -/
theorem claim_C9 (d : ℕ) (s : DimmerState) (evs : List Ev)
    (hr : 0 < s.rising_time) (hrb : s.rising_time + d < 2 ^ 64)
    (hf : 0 < s.falling_time) (hfb : s.falling_time + d < 2 ^ 64)
    (he : ∀ t lvl, Ev.edge t lvl ∈ evs → 0 < t ∧ t + d < 2 ^ 64) :
    trigTrace (shiftSt d s) (evs.map (shiftEv d)) = trigTrace s evs :=
  trigTrace_shift evs d s hr hrb hf hfb he

/-- Claim C9, witness: a concrete two-edge stream replayed 20000 µs later
from a matching state produces the identical trigger-delay sequence. -/
theorem claim_C9_witness :
    trigTrace (shiftSt 20000 ⟨10000, 10100, 50, 5000, 10000, 70, true, false, false, false, 0⟩)
        ([Ev.edge 20000 true, Ev.edge 20100 false, Ev.fire].map (shiftEv 20000)) =
      trigTrace ⟨10000, 10100, 50, 5000, 10000, 70, true, false, false, false, 0⟩
        [Ev.edge 20000 true, Ev.edge 20100 false, Ev.fire] := by
  refine claim_C9 20000 _ _ (by decide) (by decide) (by decide) (by decide) ?_
  intro t lvl hm
  simp only [List.mem_cons, List.not_mem_nil, or_false] at hm
  rcases hm with h | h | h
  · injection h with ht hl
    omega
  · injection h with ht hl
    omega
  · exact Ev.noConfusion h

/-- Claim C10: a query string longer than 15 characters (overflowing the
16-byte buffer), or a brightness value longer than 4 characters (overflowing
the 5-byte `param` buffer), leaves the stored brightness unchanged, and the
handler still responds with the decimal string of the stored value. -/
theorem claim_C10 (stored : ℕ) (q : List Char) :
    (15 < q.length → http_request_handler stored q = (stored, natRepr stored)) ∧
      ∀ v : List Char, findValue bKey (q.length + 1) q = some v → 4 < v.length →
        http_request_handler stored q = (stored, natRepr stored) := by
  constructor
  · intro h
    show (brightnessStore stored q, natRepr (brightnessStore stored q)) = _
    rw [brightnessStore_long stored q h]
  · intro v hfv hl
    show (brightnessStore stored q, natRepr (brightnessStore stored q)) = _
    rw [brightnessStore_trunc stored q v hfv hl]

/-- Claim C10, witness: the 16-character query `brightness=12345` (whose
value is also 5 characters long) leaves the store unchanged and the response
reports the stored value. -/
theorem claim_C10_witness :
    http_request_handler 7 (bq ['1', '2', '3', '4', '5']) = (7, natRepr 7) ∧
      http_request_handler 42 (bq ['1', '2', '3', '4', '5']) = (42, natRepr 42) :=
  ⟨(claim_C10 7 (bq ['1', '2', '3', '4', '5'])).1 (by decide),
    (claim_C10 42 (bq ['1', '2', '3', '4', '5'])).2 ['1', '2', '3', '4', '5']
      (by decide) (by decide)⟩
